import Mathlib

/-!
Shallow embedding of the bboltfs repository (Go): a filesystem layered on a
sorted key-value store with two buckets ("files", "dirs").  Keys are byte
strings (modelled as `List Nat`), values are byte strings.  A file value is a
21-byte little-endian metadata header followed by the payload.  File handles
carry an in-memory `bytes.Buffer` (data plus an internal read cursor) and a
seek position.  Nondeterministic inputs of the Go code (`time.Now()`) are
passed as explicit `now` parameters; `[]byte` and `string` arguments are byte
lists.  The bbolt backend keeps each bucket's keys unique and sorted in
lexicographic byte order; buckets are modelled as association lists and the
sortedness assumption appears as an explicit hypothesis where a claim needs it.
-/

namespace BboltFS

abbrev Key := List Nat

/-- Strict lexicographic byte order on keys, `bytes.Compare a b < 0` in Go. -/
def lexLt : List Nat → List Nat → Bool
  | _, [] => false
  | [], _ :: _ => true
  | a :: as, b :: bs => a < b || (a == b && lexLt as bs)

/-- Models Go `bytes.HasPrefix s p` (argument order here: `hasPfx p s` says
`p` is a byte-level prefix of `s`). -/
def hasPfx : List Nat → List Nat → Bool
  | [], _ => true
  | _ :: _, [] => false
  | a :: as, b :: bs => a == b && hasPfx as bs

/-- Metadata record `fileMeta` from file.go: mode (uint32), size (int64),
modTime (int64 nanoseconds), isDir. -/
structure FileMeta where
  mode : Nat
  size : Int
  modTime : Int
  isDir : Bool
deriving DecidableEq

/-- Models Go `bytes.Buffer`: backing data plus the internal read cursor
`off`; `Bytes()` returns the unread portion `data.drop off`. -/
structure Buffer where
  data : List Nat
  off : Nat
deriving DecidableEq

/-- Go `Buffer.Bytes()`: the unread portion of the buffer. -/
def Buffer.bytes (b : Buffer) : List Nat := b.data.drop b.off

/-- Go `Buffer.Len()`: length of the unread portion. -/
def Buffer.len (b : Buffer) : Nat := b.bytes.length

/-- Well-formedness of a `bytes.Buffer`: the read cursor never exceeds the
backing data (always true of real Go buffers). -/
def Buffer.wf (b : Buffer) : Prop := b.off ≤ b.data.length

/-- State of a `bboltFile` handle (file.go): name, cached metadata, in-memory
buffer, seek position `offset`, closed flag.  The store is passed explicitly
to operations that persist. -/
structure FileHandle where
  name : Key
  meta : FileMeta
  buffer : Buffer
  offset : Int
  closed : Bool
deriving DecidableEq

/-- State of a `bboltDirFile` handle (dir.go). -/
structure DirHandle where
  name : Key
  meta : FileMeta
deriving DecidableEq

/-- A handle returned by `Open`: either a file or a directory handle. -/
inductive Handle where
  | file : FileHandle → Handle
  | dir : DirHandle → Handle
deriving DecidableEq

/-- Error values surfaced by the modelled operations: io.EOF, os.ErrClosed,
os.ErrInvalid, ErrFileNotFound (= os.ErrNotExist), and the two errors built
by `Seek` via errors.New. -/
inductive GoErr where
  | eof
  | errClosed
  | errInvalid
  | errNotFound
  | invalidWhence
  | negativePosition
deriving DecidableEq

deriving instance DecidableEq for Except

/-- Little-endian encoding of `v` into exactly `w` bytes (the effect of
binary.Write with a fixed-width unsigned value, low byte first). -/
def encLE : Nat → Nat → List Nat
  | 0, _ => []
  | w + 1, v => v % 256 :: encLE w (v / 256)

/-- Little-endian decoding of a byte list (low byte first). -/
def decLE : List Nat → Nat
  | [] => 0
  | b :: r => b + 256 * decLE r

/-- Unsigned 64-bit pattern of an int64 (two's complement), as written by
binary.Write. -/
def toBits64 (i : Int) : Nat := (i % (2 ^ 64 : Int)).toNat

/-- Int64 read back from an unsigned 64-bit pattern (two's complement). -/
def ofBits64 (n : Nat) : Int := if n < 2 ^ 63 then (n : Int) else (n : Int) - 2 ^ 64

/-- Models `BBolt.encodeMeta`: mode (4 bytes) ++ size (8) ++ modTime (8) ++ isDir
(1), all little-endian. -/
def encodeMeta (m : FileMeta) : List Nat :=
  encLE 4 m.mode ++ encLE 8 (toBits64 m.size) ++ encLE 8 (toBits64 m.modTime)
    ++ [if m.isDir then 1 else 0]

/-- Models `BBolt.metaLen`: 4 + 8 + 8 + 1. -/
def metaLen : Nat := 21

/-- Models `BBolt.decodeMeta`: four successive binary.Read calls on a reader over
`b`; a field whose full width is not available is left at its zero value
(binary.Read fails without assigning). -/
def decodeMeta (b : List Nat) : FileMeta :=
  { mode := if 4 ≤ b.length then decLE (b.take 4) else 0
    size := if 12 ≤ b.length then ofBits64 (decLE ((b.drop 4).take 8)) else 0
    modTime := if 20 ≤ b.length then ofBits64 (decLE ((b.drop 12).take 8)) else 0
    isDir := if 21 ≤ b.length then ((b.drop 20).headD 0) != 0 else false }

abbrev Entry := Key × List Nat

/-- bbolt `Bucket.Get`. -/
def bucketGet : List Entry → Key → Option (List Nat)
  | [], _ => none
  | e :: rest, k => if e.1 = k then some e.2 else bucketGet rest k

/-- bbolt `Bucket.Put`: replaces the value at an existing key, otherwise
inserts keeping the bucket sorted. -/
def bucketPut : List Entry → Key → List Nat → List Entry
  | [], k, v => [(k, v)]
  | e :: rest, k, v =>
    if lexLt k e.1 then (k, v) :: e :: rest
    else if e.1 = k then (k, v) :: rest
    else e :: bucketPut rest k v

/-- bbolt `Bucket.Delete`: removes the entry with the given key (bucket keys
are unique, so removing every occurrence is the same operation). -/
def bucketDelete (b : List Entry) (k : Key) : List Entry :=
  b.filter (fun e => !(decide (e.1 = k)))

/-- The two buckets of the store: "files" and "dirs". -/
structure Store where
  files : List Entry
  dirs : List Entry
deriving DecidableEq

/-- Models `BBolt.saveFile`: put `encodeMeta meta ++ data` under `name` in files. -/
def saveFile (s : Store) (name : Key) (data : List Nat) (m : FileMeta) : Store :=
  { s with files := bucketPut s.files name (encodeMeta m ++ data) }

/-- Models `BBolt.loadFile`: get the value under `name` in files; on a hit, decode
the metadata and return `val[metaLen:]` as the payload. -/
def loadFile (s : Store) (name : Key) : Option (List Nat × FileMeta) :=
  match bucketGet s.files name with
  | none => none
  | some val => some (val.drop metaLen, decodeMeta val)

/-- Models `BBolt.Create`: save an empty file with mode 0666 (= 438), size 0,
modTime now, and return a fresh handle over an empty buffer. -/
def create (s : Store) (name : Key) (now : Int) : Store × FileHandle :=
  let m : FileMeta := { mode := 438, size := 0, modTime := now, isDir := false }
  (saveFile s name [] m,
   { name := name, meta := m, buffer := { data := [], off := 0 }, offset := 0, closed := false })

/-- Models `BBolt.Open`: try the files bucket first (file handle over the payload),
then the dirs bucket (directory handle), else not-found (`none`). -/
def fsOpen (s : Store) (name : Key) : Option Handle :=
  match loadFile s name with
  | some (data, m) =>
    some (Handle.file { name := name, meta := m, buffer := { data := data, off := 0 },
                        offset := 0, closed := false })
  | none =>
    match bucketGet s.dirs name with
    | some val => some (Handle.dir { name := name, meta := decodeMeta val })
    | none => none

/-- Models `BBolt.Remove`: delete the key from the files bucket. -/
def fsRemove (s : Store) (name : Key) : Store :=
  { s with files := bucketDelete s.files name }

/-- Net effect of `RemoveAll`'s cursor loop on a sorted files bucket:
`c.Seek(prefix)` positions at the first key not below `p` (drops the keys
below `p`), then the loop deletes entries while the key has `p` as a
byte-level prefix. -/
def removeAllScan (l : List Entry) (p : Key) : List Entry :=
  l.takeWhile (fun e => lexLt e.1 p)
    ++ (l.dropWhile (fun e => lexLt e.1 p)).dropWhile (fun e => hasPfx p e.1)

/-- Models `BBolt.RemoveAll`: cursor-delete the prefixed run in files, then delete
the verbatim key from dirs.  Never fails. -/
def removeAll (s : Store) (p : Key) : Store :=
  { files := removeAllScan s.files p, dirs := bucketDelete s.dirs p }

/-- Models `BBolt.Rename`: load the old entry (not-found if absent), save payload
and metadata at the new name, then `Remove` the old name. -/
def rename (s : Store) (oldname newname : Key) : Except GoErr Store :=
  match loadFile s oldname with
  | none => .error .errNotFound
  | some (data, m) => .ok (fsRemove (saveFile s newname data m) oldname)

/-- Models `BBolt.Chmod`: load, overwrite the mode field, save. -/
def chmod (s : Store) (name : Key) (mode : Nat) : Except GoErr Store :=
  match loadFile s name with
  | none => .error .errNotFound
  | some (data, m) => .ok (saveFile s name data { m with mode := mode })

/-- Models `BBolt.Chtimes`: load, overwrite the modTime field with mtime, save
(atime is discarded by the source). -/
def chtimes (s : Store) (name : Key) (mtime : Int) : Except GoErr Store :=
  match loadFile s name with
  | none => .error .errNotFound
  | some (data, m) => .ok (saveFile s name data { m with modTime := mtime })

/-- Models `bboltFile.Read` into a destination of length `plen`: closed check, then
`bytes.Buffer.Read` (on an empty buffer the Go buffer resets and returns EOF
unless the destination is empty; otherwise copy from the unread portion and
advance the cursor).  Returns ((count, bytes read, error), handle). -/
def fhRead (f : FileHandle) (plen : Nat) : (Nat × List Nat × Option GoErr) × FileHandle :=
  if f.closed then ((0, [], some .errClosed), f)
  else
    let bs := f.buffer.bytes
    if bs.length = 0 then
      if plen = 0 then ((0, [], none), { f with buffer := { data := [], off := 0 } })
      else ((0, [], some .eof), { f with buffer := { data := [], off := 0 } })
    else
      let n := min plen bs.length
      ((n, bs.take n, none), { f with buffer := { f.buffer with off := f.buffer.off + n } })

/-- Models `bboltFile.ReadAt` into a destination of length `plen` at offset `off`
(the Go offset is int64; a negative offset panics in the source via the slice
expression, so the model takes a natural number): closed check, EOF when the
offset reaches the unread snapshot's length, else copy and EOF when nothing
was copied.  The handle's fields are not mutated. -/
def fhReadAt (f : FileHandle) (plen : Nat) (off : Nat) :
    (Nat × List Nat × Option GoErr) × FileHandle :=
  if f.closed then ((0, [], some .errClosed), f)
  else
    let buf := f.buffer.bytes
    if buf.length ≤ off then ((0, [], some .eof), f)
    else
      let n := min plen (buf.length - off)
      if n = 0 then ((0, [], some .eof), f)
      else ((n, (buf.drop off).take n, none), f)

/-- Models `bboltFile.Seek`: whence 0 takes the raw offset, whence 1 and 2 both add
the offset to `buffer.Len()`, any other whence is rejected; a negative result
is rejected; otherwise the position is recorded and returned. -/
def fhSeek (f : FileHandle) (off : Int) (whence : Int) : (Int × Option GoErr) × FileHandle :=
  if f.closed then ((0, some .errClosed), f)
  else
    match (if whence = 0 then some off
           else if whence = 1 then some ((f.buffer.len : Int) + off)
           else if whence = 2 then some ((f.buffer.len : Int) + off)
           else none) with
    | none => ((0, some .invalidWhence), f)
    | some a =>
      if a < 0 then ((0, some .negativePosition), f)
      else ((a, none), { f with offset := a })

/-- Models `bboltFile.Write`: append `p` to the buffer, set size to the new
`buffer.Len()` and modTime to now, persist the unread buffer contents. -/
def fhWrite (s : Store) (f : FileHandle) (p : List Nat) (now : Int) :
    (Nat × Option GoErr) × FileHandle × Store :=
  if f.closed then ((0, some .errClosed), f, s)
  else
    let b' : Buffer := { f.buffer with data := f.buffer.data ++ p }
    let m' : FileMeta := { f.meta with size := (b'.len : Int), modTime := now }
    let f' : FileHandle := { f with buffer := b', meta := m' }
    ((p.length, none), f', saveFile s f.name b'.bytes m')

/-- Effect of Go `copy(tmp[off:], p)` on a copy `tmp` of `buf` (assuming
`off ≤ buf.length`): positions before `off` and from `off + p.length` on keep
`buf`'s bytes, the window in between takes bytes from `p`; the result never
grows beyond `buf.length`. -/
def overwriteAt (buf : List Nat) (off : Nat) (p : List Nat) : List Nat :=
  buf.take off ++ p.take (buf.length - off) ++ buf.drop (off + p.length)

/-- Models `bboltFile.WriteAt`: zero-pad the unread buffer up to `off` when `off`
exceeds its length, copy `p` over the copy `tmp` without growing it, replace
the buffer by a fresh one over `tmp`, set size/modTime, persist.  Returns
`p.length` unconditionally.  (The Go offset is int64; a negative offset
panics in the source, so the model takes a natural number.) -/
def fhWriteAt (s : Store) (f : FileHandle) (p : List Nat) (off : Nat) (now : Int) :
    (Nat × Option GoErr) × FileHandle × Store :=
  if f.closed then ((0, some .errClosed), f, s)
  else
    let buf0 := f.buffer.bytes
    let buf := if buf0.length < off then buf0 ++ List.replicate (off - buf0.length) 0 else buf0
    let tmp := overwriteAt buf off p
    let b' : Buffer := { data := tmp, off := 0 }
    let m' : FileMeta := { f.meta with size := (b'.len : Int), modTime := now }
    let f' : FileHandle := { f with buffer := b', meta := m' }
    ((p.length, none), f', saveFile s f.name b'.bytes m')

/-- Models `bboltFile.WriteString`, which delegates to Write on the string's bytes. -/
def fhWriteString (s : Store) (f : FileHandle) (p : List Nat) (now : Int) :
    (Nat × Option GoErr) × FileHandle × Store :=
  fhWrite s f p now

/-- Models `bboltFile.Truncate` (the Go size is int64; a negative size panics in the
source via the slice expression, so the model takes a natural number): shrink
to a fresh buffer over the first `size` unread bytes, or zero-pad up to
`size`; set the size field to `size`, persist. -/
def fhTruncate (s : Store) (f : FileHandle) (size : Nat) (now : Int) :
    Option GoErr × FileHandle × Store :=
  if f.closed then (some .errClosed, f, s)
  else
    let buf := f.buffer.bytes
    let b' : Buffer :=
      if size < buf.length then { data := buf.take size, off := 0 }
      else if buf.length < size then
        { f.buffer with data := f.buffer.data ++ List.replicate (size - buf.length) 0 }
      else f.buffer
    let m' : FileMeta := { f.meta with size := (size : Int), modTime := now }
    let f' : FileHandle := { f with buffer := b', meta := m' }
    (none, f', saveFile s f.name b'.bytes m')

/-- Models `bboltFile.Close`: set the closed flag, return nil. -/
def fhClose (f : FileHandle) : Option GoErr × FileHandle :=
  (none, { f with closed := true })

/-- Models `bboltDirFile.Read`: (0, io.EOF), regardless of the destination. -/
def dRead (d : DirHandle) (plen : Nat) : Nat × Option GoErr := (0, some .eof)

/-- Models `bboltDirFile.ReadAt`: (0, io.EOF). -/
def dReadAt (d : DirHandle) (plen : Nat) (off : Int) : Nat × Option GoErr := (0, some .eof)

/-- Models `bboltDirFile.Seek`: (0, io.EOF). -/
def dSeek (d : DirHandle) (off : Int) (whence : Int) : Int × Option GoErr := (0, some .eof)

/-- Models `bboltDirFile.Write`: (0, os.ErrInvalid). -/
def dWrite (d : DirHandle) (p : List Nat) : Nat × Option GoErr := (0, some .errInvalid)

/-- Models `bboltDirFile.WriteAt`: (0, os.ErrInvalid). -/
def dWriteAt (d : DirHandle) (p : List Nat) (off : Int) : Nat × Option GoErr :=
  (0, some .errInvalid)

/-- Models `bboltDirFile.WriteString`: (0, os.ErrInvalid). -/
def dWriteString (d : DirHandle) (p : List Nat) : Nat × Option GoErr := (0, some .errInvalid)

/-- Models `bboltDirFile.Truncate`: os.ErrInvalid. -/
def dTruncate (d : DirHandle) (size : Int) : Option GoErr := some .errInvalid

/-- Value invariant of the files bucket: at least the 21 metadata bytes, the
payload fits an int64 (inductive strengthening), and the decoded size field
equals the payload length. -/
def goodVal (v : List Nat) : Prop :=
  metaLen ≤ v.length ∧ v.length - metaLen < 2 ^ 63 ∧
    (decodeMeta v).size = ((v.length - metaLen : Nat) : Int)

/-- Store invariant: every files-bucket value satisfies `goodVal`. -/
def StoreInv (s : Store) : Prop := ∀ e ∈ s.files, goodVal e.2

/-- Composition used by the round-trip claims: `Open` followed by one `Read`
into a `plen`-byte destination; yields the returned count and bytes when the
name opens as a file. -/
def openThenRead (s : Store) (name : Key) (plen : Nat) : Option (Nat × List Nat) :=
  match fsOpen s name with
  | some (Handle.file h) => some ((fhRead h plen).1.1, (fhRead h plen).1.2.1)
  | _ => none

/-- Reference function for the amended C3 claim, following the spec sentence
with the whence-current base corrected: the absolute position is the raw
offset for whence start, and buffer-length-plus-offset for both whence
current and whence end; any other whence is invalid; a negative result is
rejected; otherwise the position is recorded and returned, and the buffer is
never resized. -/
def seekRef (f : FileHandle) (off : Int) (whence : Int) : (Int × Option GoErr) × FileHandle :=
  if f.closed then ((0, some .errClosed), f)
  else if whence = 0 ∨ whence = 1 ∨ whence = 2 then
    let base : Int := if whence = 0 then 0 else (f.buffer.bytes.length : Int)
    if base + off < 0 then ((0, some .negativePosition), f)
    else ((base + off, none), { f with offset := base + off })
  else ((0, some .invalidWhence), f)

/-- Reference function for the amended C5 claim: positional read copies from
the handle's current unread snapshot (`buffer.Bytes()`, i.e. the payload as
already advanced by sequential reads) at the caller's offset, never mutates
the handle, and returns the end-of-data error exactly when the offset is at
or beyond the unread snapshot's length or no byte was copied. -/
def readAtRef (f : FileHandle) (plen : Nat) (off : Nat) :
    (Nat × List Nat × Option GoErr) × FileHandle :=
  if f.closed then ((0, [], some .errClosed), f)
  else
    let out := (f.buffer.bytes.drop off).take plen
    ((out.length, out, if out.length = 0 then some .eof else none), f)

/-- Overwrite only the recorded seek position of a handle (the effect of a
successful `Seek`). -/
def setOffset (f : FileHandle) (o : Int) : FileHandle := { f with offset := o }

theorem length_encLE (w v : Nat) : (encLE w v).length = w := by
  induction w generalizing v with
  | zero => rfl
  | succ w ih => simp [encLE, ih]

theorem decLE_encLE (w v : Nat) : decLE (encLE w v) = v % 256 ^ w := by
  induction w generalizing v with
  | zero => simp [encLE, decLE, Nat.mod_one]
  | succ w ih =>
    have h : (256 : Nat) ^ (w + 1) = 256 * 256 ^ w := by ring
    rw [encLE, decLE, ih, h, Nat.mod_mul]

theorem toBits64_lt (i : Int) : toBits64 i < 2 ^ 64 := by
  have h1 : (0 : Int) ≤ i % (2 ^ 64 : Int) := Int.emod_nonneg i (by norm_num)
  have h2 : i % (2 ^ 64 : Int) < (2 ^ 64 : Int) := Int.emod_lt_of_pos i (by norm_num)
  unfold toBits64
  omega

theorem ofBits64_toBits64 (i : Int) (hlo : -(2 ^ 63) ≤ i) (hhi : i < 2 ^ 63) :
    ofBits64 (toBits64 i) = i := by
  have h1 : (0 : Int) ≤ i % (2 ^ 64 : Int) := Int.emod_nonneg i (by norm_num)
  have h3 : i % (2 ^ 64 : Int) = if 0 ≤ i then i else i + 2 ^ 64 := by
    split <;> omega
  unfold ofBits64 toBits64
  split <;> rename_i hc <;> omega

theorem length_encodeMeta (m : FileMeta) : (encodeMeta m).length = 21 := by
  simp [encodeMeta, length_encLE]

theorem encodeMeta_assoc (m : FileMeta) (data : List Nat) :
    encodeMeta m ++ data
      = encLE 4 m.mode ++ (encLE 8 (toBits64 m.size)
          ++ (encLE 8 (toBits64 m.modTime) ++ ((if m.isDir then 1 else 0) :: data))) := by
  simp [encodeMeta]

theorem take4_encodeMeta_append (m : FileMeta) (data : List Nat) :
    (encodeMeta m ++ data).take 4 = encLE 4 m.mode := by
  rw [encodeMeta_assoc]
  exact List.take_left' (length_encLE 4 m.mode)

theorem drop4_encodeMeta_append (m : FileMeta) (data : List Nat) :
    (encodeMeta m ++ data).drop 4
      = encLE 8 (toBits64 m.size)
          ++ (encLE 8 (toBits64 m.modTime) ++ ((if m.isDir then 1 else 0) :: data)) := by
  rw [encodeMeta_assoc]
  exact List.drop_left' (length_encLE 4 m.mode)

theorem drop12_encodeMeta_append (m : FileMeta) (data : List Nat) :
    (encodeMeta m ++ data).drop 12
      = encLE 8 (toBits64 m.modTime) ++ ((if m.isDir then 1 else 0) :: data) := by
  have h12 : (12 : Nat) = 4 + 8 := by norm_num
  rw [h12, ← List.drop_drop, drop4_encodeMeta_append]
  exact List.drop_left' (length_encLE 8 (toBits64 m.size))

theorem drop20_encodeMeta_append (m : FileMeta) (data : List Nat) :
    (encodeMeta m ++ data).drop 20 = (if m.isDir then 1 else 0) :: data := by
  have h20 : (20 : Nat) = 12 + 8 := by norm_num
  rw [h20, ← List.drop_drop, drop12_encodeMeta_append]
  exact List.drop_left' (length_encLE 8 (toBits64 m.modTime))

theorem seg_size_encodeMeta_append (m : FileMeta) (data : List Nat) :
    ((encodeMeta m ++ data).drop 4).take 8 = encLE 8 (toBits64 m.size) := by
  rw [drop4_encodeMeta_append]
  exact List.take_left' (length_encLE 8 (toBits64 m.size))

theorem seg_time_encodeMeta_append (m : FileMeta) (data : List Nat) :
    ((encodeMeta m ++ data).drop 12).take 8 = encLE 8 (toBits64 m.modTime) := by
  rw [drop12_encodeMeta_append]
  exact List.take_left' (length_encLE 8 (toBits64 m.modTime))

theorem length_encodeMeta_append (m : FileMeta) (data : List Nat) :
    (encodeMeta m ++ data).length = 21 + data.length := by
  simp [length_encodeMeta]

theorem pow256_4 : (256 : Nat) ^ 4 = 2 ^ 32 := by norm_num

theorem pow256_8 : (256 : Nat) ^ 8 = 2 ^ 64 := by norm_num

theorem decodeMeta_mode_append (m : FileMeta) (data : List Nat) :
    (decodeMeta (encodeMeta m ++ data)).mode = m.mode % 2 ^ 32 := by
  simp only [decodeMeta, length_encodeMeta_append]
  rw [if_pos (by omega), take4_encodeMeta_append, decLE_encLE, pow256_4]

theorem decodeMeta_size_append (m : FileMeta) (data : List Nat) :
    (decodeMeta (encodeMeta m ++ data)).size = ofBits64 (toBits64 m.size) := by
  simp only [decodeMeta, length_encodeMeta_append]
  rw [if_pos (by omega), seg_size_encodeMeta_append, decLE_encLE, pow256_8,
    Nat.mod_eq_of_lt (toBits64_lt m.size)]

theorem decodeMeta_modTime_append (m : FileMeta) (data : List Nat) :
    (decodeMeta (encodeMeta m ++ data)).modTime = ofBits64 (toBits64 m.modTime) := by
  simp only [decodeMeta, length_encodeMeta_append]
  rw [if_pos (by omega), seg_time_encodeMeta_append, decLE_encLE, pow256_8,
    Nat.mod_eq_of_lt (toBits64_lt m.modTime)]

theorem decodeMeta_isDir_append (m : FileMeta) (data : List Nat) :
    (decodeMeta (encodeMeta m ++ data)).isDir = m.isDir := by
  simp only [decodeMeta, length_encodeMeta_append]
  rw [if_pos (by omega), drop20_encodeMeta_append]
  cases m.isDir <;> simp

theorem fileMeta_ext (a b : FileMeta) (h1 : a.mode = b.mode) (h2 : a.size = b.size)
    (h3 : a.modTime = b.modTime) (h4 : a.isDir = b.isDir) : a = b := by
  cases a; cases b; simp_all

theorem decodeMeta_encodeMeta_append (m : FileMeta) (data : List Nat)
    (h1 : m.mode < 2 ^ 32) (h2 : -(2 ^ 63) ≤ m.size) (h3 : m.size < 2 ^ 63)
    (h4 : -(2 ^ 63) ≤ m.modTime) (h5 : m.modTime < 2 ^ 63) :
    decodeMeta (encodeMeta m ++ data) = m := by
  refine fileMeta_ext _ _ ?_ ?_ ?_ (decodeMeta_isDir_append m data)
  · rw [decodeMeta_mode_append]; exact Nat.mod_eq_of_lt h1
  · rw [decodeMeta_size_append]; exact ofBits64_toBits64 m.size h2 h3
  · rw [decodeMeta_modTime_append]; exact ofBits64_toBits64 m.modTime h4 h5

theorem drop_metaLen_encodeMeta (m : FileMeta) (data : List Nat) :
    (encodeMeta m ++ data).drop metaLen = data := by
  have h : (encodeMeta m).length = metaLen := length_encodeMeta m
  rw [← h, List.drop_left]

/-- C8: `encodeMeta` produces exactly 21 bytes laid out positionally as
little-endian mode (4 bytes), size (8 bytes), modTime (8 bytes), isDir
(1 byte), and `decodeMeta` recovers the record from the encoded bytes
(decode ∘ encode is the identity) for every metadata record whose fields fit
their Go widths (mode a uint32, size and modTime int64s). -/
theorem encodeMeta_roundtrip (m : FileMeta)
    (h1 : m.mode < 2 ^ 32) (h2 : -(2 ^ 63) ≤ m.size) (h3 : m.size < 2 ^ 63)
    (h4 : -(2 ^ 63) ≤ m.modTime) (h5 : m.modTime < 2 ^ 63) :
    (encodeMeta m).length = 21 ∧
    decLE ((encodeMeta m).take 4) = m.mode ∧
    ofBits64 (decLE (((encodeMeta m).drop 4).take 8)) = m.size ∧
    ofBits64 (decLE (((encodeMeta m).drop 12).take 8)) = m.modTime ∧
    (encodeMeta m).drop 20 = [if m.isDir then 1 else 0] ∧
    decodeMeta (encodeMeta m) = m := by
  have hnil : encodeMeta m = encodeMeta m ++ [] := by simp
  refine ⟨length_encodeMeta m, ?_, ?_, ?_, ?_, ?_⟩
  · rw [hnil, take4_encodeMeta_append, decLE_encLE, pow256_4]
    exact Nat.mod_eq_of_lt h1
  · rw [hnil, seg_size_encodeMeta_append, decLE_encLE, pow256_8,
      Nat.mod_eq_of_lt (toBits64_lt m.size)]
    exact ofBits64_toBits64 m.size h2 h3
  · rw [hnil, seg_time_encodeMeta_append, decLE_encLE, pow256_8,
      Nat.mod_eq_of_lt (toBits64_lt m.modTime)]
    exact ofBits64_toBits64 m.modTime h4 h5
  · rw [hnil, drop20_encodeMeta_append]
  · rw [hnil]
    exact decodeMeta_encodeMeta_append m [] h1 h2 h3 h4 h5

/-- Witness for C8 at the concrete record mode 438, size 5, modTime -7,
isDir true. -/
theorem encodeMeta_roundtrip_witness :
    ((438 : Nat) < 2 ^ 32 ∧ -(2 ^ 63) ≤ (5 : Int) ∧ (5 : Int) < 2 ^ 63 ∧
      -(2 ^ 63) ≤ (-7 : Int) ∧ (-7 : Int) < 2 ^ 63) ∧
    ((encodeMeta ⟨438, 5, -7, true⟩).length = 21 ∧
     decLE ((encodeMeta ⟨438, 5, -7, true⟩).take 4) = 438 ∧
     ofBits64 (decLE (((encodeMeta ⟨438, 5, -7, true⟩).drop 4).take 8)) = 5 ∧
     ofBits64 (decLE (((encodeMeta ⟨438, 5, -7, true⟩).drop 12).take 8)) = -7 ∧
     (encodeMeta ⟨438, 5, -7, true⟩).drop 20 = [if true then 1 else 0] ∧
     decodeMeta (encodeMeta ⟨438, 5, -7, true⟩) = ⟨438, 5, -7, true⟩) :=
  ⟨⟨by norm_num, by norm_num, by norm_num, by norm_num, by norm_num⟩,
   encodeMeta_roundtrip ⟨438, 5, -7, true⟩ (by norm_num) (by norm_num) (by norm_num)
     (by norm_num) (by norm_num)⟩

/-- C1 (refuted; the code contradicts the io.WriterAt contract that `File`
embeds): on a freshly created empty file, `WriteAt([104,105], 0)` reports 2
bytes written with no error, yet the buffer stays empty and the persisted
entry keeps an empty payload with size 0 — `copy(tmp[off:], p)` cannot grow
`tmp`, so the bytes of `p` beyond the buffer's current end are discarded
instead of extending the buffer as the claim (and io.WriterAt) require. -/
theorem writeAt_loses_bytes_past_end :
    (fhWriteAt (create ⟨[], []⟩ [107] 0).1 (create ⟨[], []⟩ [107] 0).2 [104, 105] 0 7).1
      = (2, none) ∧
    (fhWriteAt (create ⟨[], []⟩ [107] 0).1 (create ⟨[], []⟩ [107] 0).2
        [104, 105] 0 7).2.1.buffer.bytes = [] ∧
    loadFile (fhWriteAt (create ⟨[], []⟩ [107] 0).1 (create ⟨[], []⟩ [107] 0).2
        [104, 105] 0 7).2.2 [107]
      = some ([], { mode := 438, size := 0, modTime := 7, isDir := false }) := by
  refine ⟨by decide, by decide, by decide⟩

/-- C4 counterexample: `Read` on a directory handle returns io.EOF, which is
not the invalid-operation error the claim requires for all seven
operations. -/
theorem dir_read_eof_not_invalid :
    (dRead { name := [], meta := { mode := 0, size := 0, modTime := 0, isDir := true } } 5).2
      = some GoErr.eof ∧
    some GoErr.eof ≠ some GoErr.errInvalid := by decide

/-- C4 (amended): on a directory handle, write, writeAt, writeString and
truncate are rejected with the invalid-operation error os.ErrInvalid, while
read, readAt and seek instead return zero values with the end-of-data error
io.EOF; none of these methods touches the store (the source methods never
reference the filesystem beyond the handle itself, which is why the model
gives them no store parameter). -/
theorem dir_ops_spec (d : DirHandle) (p : List Nat) (plen : Nat) (off whence size : Int) :
    dWrite d p = (0, some .errInvalid) ∧
    dWriteAt d p off = (0, some .errInvalid) ∧
    dWriteString d p = (0, some .errInvalid) ∧
    dTruncate d size = some .errInvalid ∧
    dRead d plen = (0, some .eof) ∧
    dReadAt d plen off = (0, some .eof) ∧
    dSeek d off whence = (0, some .eof) :=
  ⟨rfl, rfl, rfl, rfl, rfl, rfl, rfl⟩

theorem lexLt_irrefl (k : Key) : lexLt k k = false := by
  induction k with
  | nil => rfl
  | cons a as ih => simp [lexLt, ih]

theorem bucketGet_put_self (b : List Entry) (k : Key) (v : List Nat) :
    bucketGet (bucketPut b k v) k = some v := by
  induction b with
  | nil => simp [bucketPut, bucketGet]
  | cons e rest ih =>
    by_cases h1 : lexLt k e.1 = true
    · simp [bucketPut, h1, bucketGet]
    · by_cases h2 : e.1 = k
      · simp [bucketPut, h1, h2, bucketGet, lexLt_irrefl]
      · simp [bucketPut, h1, h2, bucketGet, ih]

theorem bucketGet_put_ne (b : List Entry) (k k' : Key) (v : List Nat) (h : k' ≠ k) :
    bucketGet (bucketPut b k v) k' = bucketGet b k' := by
  induction b with
  | nil => simp [bucketPut, bucketGet, Ne.symm h]
  | cons e rest ih =>
    by_cases h1 : lexLt k e.1 = true
    · simp [bucketPut, h1, bucketGet, Ne.symm h]
    · by_cases h2 : e.1 = k
      · simp [bucketPut, h1, h2, bucketGet, Ne.symm h, lexLt_irrefl]
      · simp [bucketPut, h1, h2, bucketGet, ih]

theorem bucketGet_eq_none (b : List Entry) (k : Key) (h : ∀ e ∈ b, e.1 ≠ k) :
    bucketGet b k = none := by
  induction b with
  | nil => rfl
  | cons e rest ih =>
    simp only [bucketGet, if_neg (h e (List.mem_cons_self e rest))]
    exact ih fun x hx => h x (List.mem_cons_of_mem e hx)

theorem bucketGet_delete_self (b : List Entry) (k : Key) :
    bucketGet (bucketDelete b k) k = none := by
  apply bucketGet_eq_none
  intro e he
  have hm := List.mem_filter.mp he
  simpa using hm.2

theorem bucketGet_delete_ne (b : List Entry) (k k' : Key) (h : k' ≠ k) :
    bucketGet (bucketDelete b k) k' = bucketGet b k' := by
  induction b with
  | nil => rfl
  | cons e rest ih =>
    by_cases h2 : e.1 = k
    · rw [bucketDelete, List.filter_cons_of_neg (by simp [h2])]
      rw [show List.filter (fun e => !(decide (e.1 = k))) rest = bucketDelete rest k from rfl, ih]
      simp [bucketGet, h2, Ne.symm h]
    · rw [bucketDelete, List.filter_cons_of_pos (by simp [h2])]
      simp only [bucketGet]
      rw [show List.filter (fun e => !(decide (e.1 = k))) rest = bucketDelete rest k from rfl, ih]

theorem mem_of_bucketGet (b : List Entry) (k : Key) (v : List Nat)
    (h : bucketGet b k = some v) : (k, v) ∈ b := by
  induction b with
  | nil => simp [bucketGet] at h
  | cons e rest ih =>
    obtain ⟨ek, ev⟩ := e
    by_cases heq : ek = k
    · simp only [bucketGet, if_pos heq] at h
      obtain rfl : ev = v := by injection h
      subst heq
      exact List.mem_cons_self _ _
    · simp only [bucketGet, if_neg heq] at h
      exact List.mem_cons_of_mem _ (ih h)

theorem mem_bucketPut (b : List Entry) (k : Key) (v : List Nat) (e : Entry)
    (h : e ∈ bucketPut b k v) : e ∈ b ∨ e = (k, v) := by
  induction b with
  | nil =>
    simp only [bucketPut, List.mem_singleton] at h
    exact Or.inr h
  | cons e0 rest ih =>
    by_cases h1 : lexLt k e0.1 = true
    · simp only [bucketPut, if_pos h1, List.mem_cons] at h
      rcases h with h | h
      · exact Or.inr h
      · exact Or.inl (List.mem_cons.mpr (by simpa using h))
    · by_cases h2 : e0.1 = k
      · simp only [bucketPut, if_neg h1, if_pos h2, List.mem_cons] at h
        rcases h with h | h
        · exact Or.inr h
        · exact Or.inl (List.mem_cons_of_mem _ h)
      · simp only [bucketPut, if_neg h1, if_neg h2, List.mem_cons] at h
        rcases h with h | h
        · exact Or.inl (by simp [h])
        · rcases ih h with h' | h'
          · exact Or.inl (List.mem_cons_of_mem _ h')
          · exact Or.inr h'

theorem mem_bucketDelete (b : List Entry) (k : Key) (e : Entry)
    (h : e ∈ bucketDelete b k) : e ∈ b :=
  (List.mem_filter.mp h).1

theorem hasPfx_refl (p : Key) : hasPfx p p = true := by
  induction p with
  | nil => rfl
  | cons a as ih => simp [hasPfx, ih]

theorem not_lexLt_of_hasPfx (p k : Key) (h : hasPfx p k = true) : lexLt k p = false := by
  induction p generalizing k with
  | nil => cases k <;> rfl
  | cons a as ih =>
    cases k with
    | nil => simp [hasPfx] at h
    | cons b bs =>
      simp only [hasPfx, Bool.and_eq_true, beq_iff_eq] at h
      obtain ⟨hab, h2⟩ := h
      subst hab
      simp [lexLt, ih bs h2]

theorem lexLt_trans (a b c : Key) (h1 : lexLt a b = true) (h2 : lexLt b c = true) :
    lexLt a c = true := by
  induction c generalizing a b with
  | nil => cases b <;> simp [lexLt] at h2
  | cons cc cs ih =>
    cases a with
    | nil => rfl
    | cons aa as =>
      cases b with
      | nil => simp [lexLt] at h1
      | cons bb bs =>
        simp only [lexLt, Bool.or_eq_true, Bool.and_eq_true, beq_iff_eq,
          decide_eq_true_eq] at h1 h2 ⊢
        rcases h1 with h1 | ⟨h1e, h1r⟩ <;> rcases h2 with h2 | ⟨h2e, h2r⟩
        · left; omega
        · left; omega
        · left; omega
        · right; exact ⟨by omega, ih as bs h1r h2r⟩

theorem lexLt_cases (a b : Key) : lexLt a b = true ∨ a = b ∨ lexLt b a = true := by
  induction a generalizing b with
  | nil =>
    cases b with
    | nil => right; left; rfl
    | cons bb bs => left; rfl
  | cons aa as ih =>
    cases b with
    | nil => right; right; rfl
    | cons bb bs =>
      rcases Nat.lt_trichotomy aa bb with h | h | h
      · left; simp [lexLt, h]
      · subst h
        rcases ih bs with h2 | h2 | h2
        · left; simp [lexLt, h2]
        · right; left; rw [h2]
        · right; right; simp [lexLt, h2]
      · right; right; simp [lexLt, h]

theorem lexLt_total (a b : Key) (h : lexLt a b = false) (hne : a ≠ b) : lexLt b a = true := by
  rcases lexLt_cases a b with h2 | h2 | h2
  · rw [h] at h2; exact absurd h2 (by simp)
  · exact absurd h2 hne
  · exact h2

theorem lexLt_of_pfx_gap (p k1 k2 : Key) (h1 : lexLt p k1 = true)
    (h2 : hasPfx p k1 = false) (h3 : hasPfx p k2 = true) : lexLt k2 k1 = true := by
  induction p generalizing k1 k2 with
  | nil => simp [hasPfx] at h2
  | cons a as ih =>
    cases k1 with
    | nil => simp [lexLt] at h1
    | cons b bs =>
      cases k2 with
      | nil => simp [hasPfx] at h3
      | cons c cs =>
        simp only [lexLt, hasPfx, Bool.or_eq_true, Bool.and_eq_true, beq_iff_eq,
          decide_eq_true_eq] at h1 h3 ⊢
        obtain ⟨hac, hcs⟩ := h3
        subst hac
        rcases h1 with h1 | ⟨hab, h1r⟩
        · left; exact h1
        · subst hab
          have h2' : hasPfx as bs = false := by
            cases hx : hasPfx as bs
            · rfl
            · simp [hasPfx, hx] at h2
          right; exact ⟨rfl, ih bs cs h1r h2' hcs⟩

theorem dropWhile_pfx_eq_filter (p : Key) (l : List Entry)
    (hall : ∀ e ∈ l, lexLt e.1 p = false)
    (hs : l.Pairwise (fun e1 e2 => lexLt e1.1 e2.1 = true)) :
    l.dropWhile (fun e => hasPfx p e.1) = l.filter (fun e => !(hasPfx p e.1)) := by
  induction l with
  | nil => rfl
  | cons e rest ih =>
    obtain ⟨hrel, hs'⟩ := List.pairwise_cons.mp hs
    cases hp : hasPfx p e.1 with
    | true =>
      rw [List.dropWhile_cons_of_pos (by simp [hp]), List.filter_cons_of_neg (by simp [hp])]
      refine ih (fun x hx => ?_) hs'
      cases hx2 : lexLt x.1 p with
      | false => rfl
      | true =>
        have hep : lexLt e.1 p = true := lexLt_trans _ _ _ (hrel x hx) hx2
        rw [not_lexLt_of_hasPfx p e.1 hp] at hep
        exact absurd hep (by simp)
    | false =>
      rw [List.dropWhile_cons_of_neg (by simp [hp]), List.filter_cons_of_pos (by simp [hp])]
      congr 1
      refine (List.filter_eq_self.mpr fun x hx => ?_).symm
      cases hxp : hasPfx p x.1 with
      | false => simp [hxp]
      | true =>
        have hep : lexLt e.1 p = false := hall e (List.mem_cons_self e rest)
        have hnep : e.1 ≠ p := by
          intro hcontra
          rw [hcontra, hasPfx_refl] at hp
          exact absurd hp (by simp)
        have hpe : lexLt p e.1 = true := lexLt_total e.1 p hep hnep
        have hxe : lexLt x.1 e.1 = true := lexLt_of_pfx_gap p e.1 x.1 hpe hp hxp
        have hee : lexLt e.1 e.1 = true := lexLt_trans _ _ _ (hrel x hx) hxe
        rw [lexLt_irrefl] at hee
        exact absurd hee (by simp)

theorem removeAllScan_cons_lt (e : Entry) (rest : List Entry) (p : Key)
    (hc : lexLt e.1 p = true) :
    removeAllScan (e :: rest) p = e :: removeAllScan rest p := by
  unfold removeAllScan
  rw [List.takeWhile_cons_of_pos (by simp [hc]), List.dropWhile_cons_of_pos (by simp [hc]),
    List.cons_append]

theorem removeAllScan_cons_ge (e : Entry) (rest : List Entry) (p : Key)
    (hc : lexLt e.1 p = false) :
    removeAllScan (e :: rest) p = (e :: rest).dropWhile (fun x => hasPfx p x.1) := by
  unfold removeAllScan
  rw [List.takeWhile_cons_of_neg (by simp [hc]), List.dropWhile_cons_of_neg (by simp [hc]),
    List.nil_append]

theorem removeAllScan_eq_filter (l : List Entry) (p : Key)
    (hs : l.Pairwise (fun e1 e2 => lexLt e1.1 e2.1 = true)) :
    removeAllScan l p = l.filter (fun e => !(hasPfx p e.1)) := by
  induction l with
  | nil => rfl
  | cons e rest ih =>
    obtain ⟨hrel, hs'⟩ := List.pairwise_cons.mp hs
    cases hc : lexLt e.1 p with
    | true =>
      have hp : hasPfx p e.1 = false := by
        cases hx : hasPfx p e.1
        · rfl
        · rw [not_lexLt_of_hasPfx p e.1 hx] at hc; exact absurd hc (by simp)
      rw [removeAllScan_cons_lt e rest p hc, List.filter_cons_of_pos (by simp [hp]), ih hs']
    | false =>
      rw [removeAllScan_cons_ge e rest p hc]
      refine dropWhile_pfx_eq_filter p (e :: rest) (fun x hx => ?_) hs
      rcases List.mem_cons.mp hx with h | h
      · rw [h]; exact hc
      · cases hx2 : lexLt x.1 p with
        | false => rfl
        | true =>
          have : lexLt e.1 p = true := lexLt_trans _ _ _ (hrel x h) hx2
          rw [hc] at this
          exact absurd this (by simp)

/-- C6: on a store whose files bucket is sorted (as the bbolt backend keeps
it), `removeAll p` deletes from the file collection exactly the entries whose
key has `p` as a byte-level prefix — not segment-aware, so removing a
directory "ab" also deletes a sibling file "abc.txt" — and from the directory
collection exactly the one key equal to `p` verbatim; the operation is total
and succeeds even when no key matched. -/
theorem removeAll_spec (s : Store) (p : Key)
    (hs : s.files.Pairwise (fun e1 e2 => lexLt e1.1 e2.1 = true)) :
    (removeAll s p).files = s.files.filter (fun e => !(hasPfx p e.1)) ∧
    (∀ k, bucketGet (removeAll s p).dirs k = if k = p then none else bucketGet s.dirs k) := by
  constructor
  · exact removeAllScan_eq_filter s.files p hs
  · intro k
    by_cases hk : k = p
    · subst hk
      simpa [removeAll] using bucketGet_delete_self s.dirs k
    · simpa [removeAll, hk] using bucketGet_delete_ne s.dirs p k hk

/-- Witness for C6: a sorted store holding file keys "ab", "abc" and "b" (as
byte lists) and dir key "ab"; removing "ab" deletes the sibling "abc" from
files and the verbatim key from dirs, keeping "b". -/
theorem removeAll_spec_witness :
    (([([97, 98], [1]), ([97, 98, 99], [2]), ([98], [3])] : List Entry).Pairwise
        (fun e1 e2 => lexLt e1.1 e2.1 = true)) ∧
    (removeAll ⟨[([97, 98], [1]), ([97, 98, 99], [2]), ([98], [3])],
        [([97, 98], [9])]⟩ [97, 98]).files = [([98], [3])] ∧
    bucketGet (removeAll ⟨[([97, 98], [1]), ([97, 98, 99], [2]), ([98], [3])],
        [([97, 98], [9])]⟩ [97, 98]).dirs [97, 98] = none := by
  have hp : (([([97, 98], [1]), ([97, 98, 99], [2]), ([98], [3])] : List Entry).Pairwise
      (fun e1 e2 => lexLt e1.1 e2.1 = true)) := by decide
  have h := removeAll_spec ⟨[([97, 98], [1]), ([97, 98, 99], [2]), ([98], [3])],
      [([97, 98], [9])]⟩ [97, 98] hp
  refine ⟨hp, ?_, ?_⟩
  · rw [h.1]; decide
  · rw [h.2 [97, 98]]; decide

theorem loadFile_eq (s : Store) (name : Key) (val : List Nat)
    (h : bucketGet s.files name = some val) :
    loadFile s name = some (val.drop metaLen, decodeMeta val) := by
  unfold loadFile
  rw [h]

theorem loadFile_none (s : Store) (name : Key) (h : bucketGet s.files name = none) :
    loadFile s name = none := by
  unfold loadFile
  rw [h]

theorem fsOpen_file (s : Store) (name : Key) (data : List Nat) (m : FileMeta)
    (h : loadFile s name = some (data, m)) :
    fsOpen s name = some (Handle.file ⟨name, m, ⟨data, 0⟩, 0, false⟩) := by
  unfold fsOpen
  rw [h]

theorem fsOpen_none (s : Store) (name : Key) (hf : loadFile s name = none)
    (hd : bucketGet s.dirs name = none) : fsOpen s name = none := by
  unfold fsOpen
  rw [hf, hd]

theorem openThenRead_file (s : Store) (name : Key) (plen : Nat) (h : FileHandle)
    (hopen : fsOpen s name = some (Handle.file h)) :
    openThenRead s name plen = some ((fhRead h plen).1.1, (fhRead h plen).1.2.1) := by
  unfold openThenRead
  rw [hopen]

theorem take_min_length (l : List Nat) (n : Nat) : l.take (min n l.length) = l.take n := by
  rw [← List.take_take, List.take_length]

theorem fhRead_all (f : FileHandle) (plen : Nat) (hcl : f.closed = false)
    (hlen : f.buffer.bytes.length ≤ plen) :
    (fhRead f plen).1.1 = f.buffer.bytes.length ∧ (fhRead f plen).1.2.1 = f.buffer.bytes := by
  unfold fhRead
  rw [hcl]
  simp only [Bool.false_eq_true, if_false]
  by_cases h0 : f.buffer.bytes.length = 0
  · have hnil : f.buffer.bytes = [] := List.length_eq_zero.mp h0
    rw [if_pos h0]
    by_cases hp : plen = 0 <;> simp [hp, hnil]
  · rw [if_neg h0]
    have hmin : min plen f.buffer.bytes.length = f.buffer.bytes.length := Nat.min_eq_right hlen
    simp [hmin, List.take_length]

/-- C2: for every store, path and byte sequence `w`, Create at the path, then
Write of `w` through the returned handle (which reports `w.length` bytes and
no error), then Close (which returns nil), then Open of the same path yields
a file handle whose single read into a destination of at least `w.length`
bytes returns exactly `w`, in order; the witness instantiates the spec's
concrete scenario ("test.txt", the 15 bytes of "hello, bboltfs!", a 100-byte
destination). -/
theorem create_write_reopen_read (s : Store) (name : Key) (w : List Nat) (n1 n2 : Int)
    (plen : Nat) (hlen : w.length ≤ plen) :
    (fhWrite (create s name n1).1 (create s name n1).2 w n2).1 = (w.length, none) ∧
    (fhClose (fhWrite (create s name n1).1 (create s name n1).2 w n2).2.1).1 = none ∧
    openThenRead ((fhWrite (create s name n1).1 (create s name n1).2 w n2).2.2) name plen
      = some (w.length, w) := by
  refine ⟨by simp [create, fhWrite], rfl, ?_⟩
  have hW : (fhWrite (create s name n1).1 (create s name n1).2 w n2).2.2
      = saveFile (create s name n1).1 name w ⟨438, (w.length : Int), n2, false⟩ := by
    simp [create, fhWrite, Buffer.len, Buffer.bytes]
  rw [hW]
  have hget : bucketGet (saveFile (create s name n1).1 name w
        ⟨438, (w.length : Int), n2, false⟩).files name
      = some (encodeMeta ⟨438, (w.length : Int), n2, false⟩ ++ w) := by
    simp only [saveFile]
    exact bucketGet_put_self _ _ _
  have hload := loadFile_eq _ _ _ hget
  rw [drop_metaLen_encodeMeta] at hload
  have hopen := fsOpen_file _ _ _ _ hload
  rw [openThenRead_file _ _ plen _ hopen]
  have hr := fhRead_all
      ⟨name, decodeMeta (encodeMeta ⟨438, (w.length : Int), n2, false⟩ ++ w), ⟨w, 0⟩, 0, false⟩
      plen rfl (by simpa [Buffer.bytes] using hlen)
  rw [hr.1, hr.2]
  simp [Buffer.bytes]

/-- Witness for C2: the spec's concrete scenario — path "test.txt", the 15
bytes of "hello, bboltfs!", destination length 100. -/
theorem create_write_reopen_read_witness :
    (([104, 101, 108, 108, 111, 44, 32, 98, 98, 111, 108, 116, 102, 115, 33] : List Nat).length
        ≤ 100) ∧
    ((fhWrite (create ⟨[], []⟩ [116, 101, 115, 116, 46, 116, 120, 116] 0).1
        (create ⟨[], []⟩ [116, 101, 115, 116, 46, 116, 120, 116] 0).2
        [104, 101, 108, 108, 111, 44, 32, 98, 98, 111, 108, 116, 102, 115, 33] 0).1
      = (([104, 101, 108, 108, 111, 44, 32, 98, 98, 111, 108, 116, 102, 115, 33] :
          List Nat).length, none) ∧
     (fhClose (fhWrite (create ⟨[], []⟩ [116, 101, 115, 116, 46, 116, 120, 116] 0).1
        (create ⟨[], []⟩ [116, 101, 115, 116, 46, 116, 120, 116] 0).2
        [104, 101, 108, 108, 111, 44, 32, 98, 98, 111, 108, 116, 102, 115, 33] 0).2.1).1
      = none ∧
     openThenRead ((fhWrite (create ⟨[], []⟩ [116, 101, 115, 116, 46, 116, 120, 116] 0).1
        (create ⟨[], []⟩ [116, 101, 115, 116, 46, 116, 120, 116] 0).2
        [104, 101, 108, 108, 111, 44, 32, 98, 98, 111, 108, 116, 102, 115, 33] 0).2.2)
        [116, 101, 115, 116, 46, 116, 120, 116] 100
      = some (([104, 101, 108, 108, 111, 44, 32, 98, 98, 111, 108, 116, 102, 115, 33] :
          List Nat).length,
          [104, 101, 108, 108, 111, 44, 32, 98, 98, 111, 108, 116, 102, 115, 33])) :=
  ⟨by decide,
   create_write_reopen_read ⟨[], []⟩ [116, 101, 115, 116, 46, 116, 120, 116]
     [104, 101, 108, 108, 111, 44, 32, 98, 98, 111, 108, 116, 102, 115, 33] 0 0 100 (by decide)⟩

/-- C7 counterexample: the claim quantifies over every pair of paths, but for
old = new (a one-element pair, here key [5] holding payload [42]) rename
saves and then deletes the same key, so the file is gone: open(new) fails
not-found instead of returning the content old held before. -/
theorem rename_same_path_loses_file :
    rename ⟨[([5], encodeMeta ⟨438, 1, 0, false⟩ ++ [42])], []⟩ [5] [5]
      = .ok ⟨[], []⟩ ∧
    fsOpen (⟨[], []⟩ : Store) [5] = none := by
  refine ⟨by decide, by decide⟩

/-- C7 (amended): for distinct paths old ≠ new, on a store with no directory
entry at old (the documented invariant that no key lives in both
collections): when no file entry exists at old, rename fails with the
not-found error; otherwise it succeeds with a store in which open(old) fails
not-found and new holds exactly old's previous stored value (metadata ++
payload), so opening new and reading returns the content old held before. -/
theorem rename_spec (s : Store) (oldname newname : Key) (hne : oldname ≠ newname)
    (hdir : bucketGet s.dirs oldname = none) :
    (loadFile s oldname = none → rename s oldname newname = .error .errNotFound) ∧
    (∀ data m, loadFile s oldname = some (data, m) →
      ∃ s2, rename s oldname newname = .ok s2 ∧
        fsOpen s2 oldname = none ∧
        bucketGet s2.files newname = some (encodeMeta m ++ data) ∧
        openThenRead s2 newname data.length = some (data.length, data)) := by
  constructor
  · intro h
    unfold rename
    rw [h]
  · intro data m h
    refine ⟨fsRemove (saveFile s newname data m) oldname, ?_, ?_, ?_, ?_⟩
    · unfold rename
      rw [h]
    · apply fsOpen_none
      · apply loadFile_none
        simp only [fsRemove, saveFile]
        exact bucketGet_delete_self _ _
      · simpa [fsRemove, saveFile] using hdir
    · simp only [fsRemove, saveFile]
      rw [bucketGet_delete_ne _ _ _ (Ne.symm hne)]
      exact bucketGet_put_self _ _ _
    · have hget2 : bucketGet (fsRemove (saveFile s newname data m) oldname).files newname
          = some (encodeMeta m ++ data) := by
        simp only [fsRemove, saveFile]
        rw [bucketGet_delete_ne _ _ _ (Ne.symm hne)]
        exact bucketGet_put_self _ _ _
      have hload2 := loadFile_eq _ _ _ hget2
      rw [drop_metaLen_encodeMeta] at hload2
      have hopen2 := fsOpen_file _ _ _ _ hload2
      rw [openThenRead_file _ _ data.length _ hopen2]
      have hr := fhRead_all ⟨newname, decodeMeta (encodeMeta m ++ data), ⟨data, 0⟩, 0, false⟩
          data.length rfl (by simp [Buffer.bytes])
      rw [hr.1, hr.2]
      simp [Buffer.bytes]

/-- Witness for the amended C7: a one-file store, old = [5], new = [6]. -/
theorem rename_spec_witness :
    (([5] : Key) ≠ [6]) ∧
    bucketGet ((⟨[([5], encodeMeta ⟨438, 1, 0, false⟩ ++ [42])], []⟩ : Store)).dirs [5]
      = none ∧
    loadFile (⟨[([5], encodeMeta ⟨438, 1, 0, false⟩ ++ [42])], []⟩ : Store) [5]
      = some ([42], ⟨438, 1, 0, false⟩) ∧
    (∃ s2, rename (⟨[([5], encodeMeta ⟨438, 1, 0, false⟩ ++ [42])], []⟩ : Store) [5] [6]
        = .ok s2 ∧
      fsOpen s2 [5] = none ∧
      bucketGet s2.files [6] = some (encodeMeta ⟨438, 1, 0, false⟩ ++ [42]) ∧
      openThenRead s2 [6] ([42] : List Nat).length = some (([42] : List Nat).length, [42])) :=
  ⟨by decide, by decide, by decide,
   (rename_spec (⟨[([5], encodeMeta ⟨438, 1, 0, false⟩ ++ [42])], []⟩ : Store) [5] [6]
     (by decide) (by decide)).2 [42] ⟨438, 1, 0, false⟩ (by decide)⟩

/-- C3 counterexample: a handle whose recorded position is 1 over a 3-byte
unread buffer; seek(0, SeekCurrent) returns 3 — the buffer length, exactly as
SeekEnd would — not an offset relative to the recorded current position 1. -/
theorem seek_current_not_from_position :
    (fhSeek ⟨[], ⟨0, 0, 0, false⟩, ⟨[1, 2, 3], 0⟩, 1, false⟩ 0 1).1 = (3, none) ∧
    ((⟨[], ⟨0, 0, 0, false⟩, ⟨[1, 2, 3], 0⟩, 1, false⟩ : FileHandle)).offset + 0 ≠ 3 := by
  refine ⟨by decide, by decide⟩

/-- C3 (amended): `Seek` coincides with the reference `seekRef`: whence start
takes the raw offset, whence current and whence end both add the offset to
the end of the (unread) buffer, any other whence fails with the
invalid-whence error, a negative computed position fails with the
negative-position error, and otherwise the position is recorded and
returned; the buffer is never resized. -/
theorem seek_spec (f : FileHandle) (off whence : Int) :
    fhSeek f off whence = seekRef f off whence ∧
    (fhSeek f off whence).2.buffer = f.buffer := by
  have hmain : fhSeek f off whence = seekRef f off whence := by
    unfold fhSeek seekRef
    by_cases hc : f.closed = true
    · simp [hc]
    · by_cases h0 : whence = 0
      · simp [hc, h0]
      · by_cases h1 : whence = 1
        · simp [hc, h0, h1, Buffer.len]
        · by_cases h2 : whence = 2
          · simp [hc, h0, h1, h2, Buffer.len]
          · simp [hc, h0, h1, h2]
  refine ⟨hmain, ?_⟩
  rw [hmain]
  unfold seekRef
  by_cases hc : f.closed = true
  · simp [hc]
  · by_cases hw : whence = 0 ∨ whence = 1 ∨ whence = 2
    · simp only [hc, hw, Bool.false_eq_true, if_false, if_true]
      split <;> (split <;> simp)
    · simp [hc, hw]

/-- C5 counterexample: on a 3-byte file, a 1-byte sequential read followed by
readAt(offset 0) returns the second byte, while readAt(offset 0) on the
fresh handle returns the first byte: readAt reads `buffer.Bytes()`, the
unread remainder, so its result IS affected by prior sequential reads. -/
theorem readAt_affected_by_prior_read :
    (fhReadAt (fhRead ⟨[], ⟨0, 0, 0, false⟩, ⟨[10, 20, 30], 0⟩, 0, false⟩ 1).2 1 0).1.2.1
      = [20] ∧
    (fhReadAt ⟨[], ⟨0, 0, 0, false⟩, ⟨[10, 20, 30], 0⟩, 0, false⟩ 1 0).1.2.1 = [10] ∧
    ([20] : List Nat) ≠ [10] := by
  refine ⟨by decide, by decide, by decide⟩

/-- C5 (amended): `ReadAt` coincides with the reference `readAtRef`: it
copies from the handle's current unread snapshot at the caller-given offset
without mutating the handle (so a later sequential read is unaffected, though
the unread snapshot itself reflects earlier sequential reads), and it
returns the end-of-data error exactly when the offset is at or beyond the
unread snapshot's length or no byte was copied. -/
theorem readAt_spec (f : FileHandle) (plen off : Nat) :
    fhReadAt f plen off = readAtRef f plen off ∧
    (fhReadAt f plen off).2 = f := by
  have hmain : fhReadAt f plen off = readAtRef f plen off := by
    unfold fhReadAt readAtRef
    by_cases hc : f.closed = true
    · simp [hc]
    · simp only [hc, Bool.false_eq_true, if_false]
      by_cases hoff : f.buffer.bytes.length ≤ off
      · have hnil : f.buffer.bytes.drop off = [] := List.drop_eq_nil_of_le hoff
        simp [hoff, hnil]
      · rw [if_neg hoff]
        have hdl : (f.buffer.bytes.drop off).length = f.buffer.bytes.length - off :=
          List.length_drop off f.buffer.bytes
        by_cases hn : min plen (f.buffer.bytes.length - off) = 0
        · rw [if_pos hn]
          have hout : (f.buffer.bytes.drop off).take plen = [] := by
            have h0 : ((f.buffer.bytes.drop off).take plen).length = 0 := by
              rw [List.length_take, hdl]; omega
            exact List.length_eq_zero.mp h0
          simp [hout]
        · rw [if_neg hn]
          have hlen_out : ((f.buffer.bytes.drop off).take plen).length
              = min plen (f.buffer.bytes.length - off) := by
            rw [List.length_take, hdl]
          have htake : (f.buffer.bytes.drop off).take (min plen (f.buffer.bytes.length - off))
              = (f.buffer.bytes.drop off).take plen := by
            rw [← hdl]
            exact take_min_length _ _
          simp [hlen_out, htake, hn]
  refine ⟨hmain, ?_⟩
  rw [hmain]
  unfold readAtRef
  by_cases hc : f.closed = true
  · simp [hc]
  · simp [hc]

/-- C10: the position recorded by `Seek` is never consulted by any other
operation: a successful `Seek` changes the handle's offset field and nothing
else, while `Read` and `Write` ignore that field entirely — their return
values, resulting handle state (up to the untouched offset) and resulting
store are the same for every recorded offset; moreover `Read` always consumes
from the front of the buffer's unread data and `Write` always appends at the
current end of the buffer's backing data. -/
theorem seek_position_never_consulted (f : FileHandle) (o : Int) (s : Store) (p : List Nat)
    (now : Int) (plen : Nat) :
    (fhRead (setOffset f o) plen).1 = (fhRead f plen).1 ∧
    (fhRead (setOffset f o) plen).2 = setOffset (fhRead f plen).2 o ∧
    (fhWrite s (setOffset f o) p now).1 = (fhWrite s f p now).1 ∧
    (fhWrite s (setOffset f o) p now).2.1 = setOffset (fhWrite s f p now).2.1 o ∧
    (fhWrite s (setOffset f o) p now).2.2 = (fhWrite s f p now).2.2 ∧
    (∀ soff wh, (fhSeek f soff wh).2 = f ∨
        (fhSeek f soff wh).2 = setOffset f (fhSeek f soff wh).1.1) ∧
    ((fhRead f plen).1.2.1 = if f.closed then [] else f.buffer.bytes.take plen) ∧
    ((fhWrite s f p now).2.1.buffer.data
        = if f.closed then f.buffer.data else f.buffer.data ++ p) := by
  refine ⟨?_, ?_, ?_, ?_, ?_, ?_, ?_, ?_⟩
  · unfold fhRead setOffset
    by_cases hc : f.closed = true
    · simp [hc]
    · by_cases h0 : f.buffer.bytes.length = 0
      · by_cases hp : plen = 0 <;> simp [hc, h0, hp]
      · simp [hc, h0]
  · unfold fhRead setOffset
    by_cases hc : f.closed = true
    · simp [hc]
    · by_cases h0 : f.buffer.bytes.length = 0
      · by_cases hp : plen = 0 <;> simp [hc, h0, hp]
      · simp [hc, h0]
  · unfold fhWrite setOffset
    by_cases hc : f.closed = true <;> simp [hc]
  · unfold fhWrite setOffset
    by_cases hc : f.closed = true <;> simp [hc]
  · unfold fhWrite setOffset
    by_cases hc : f.closed = true <;> simp [hc]
  · intro soff wh
    unfold fhSeek
    by_cases hc : f.closed = true
    · left; simp [hc]
    · simp only [hc, Bool.false_eq_true, if_false]
      cases hw : (if wh = 0 then some soff
          else if wh = 1 then some ((f.buffer.len : Int) + soff)
          else if wh = 2 then some ((f.buffer.len : Int) + soff)
          else none) with
      | none => left; rfl
      | some a =>
        by_cases hneg : a < 0
        · left; simp [hneg]
        · right; simp [hneg, setOffset, hc]
  · unfold fhRead
    by_cases hc : f.closed = true
    · simp [hc]
    · by_cases h0 : f.buffer.bytes.length = 0
      · have hnil : f.buffer.bytes = [] := List.length_eq_zero.mp h0
        by_cases hp : plen = 0 <;> simp [hc, h0, hp, hnil]
      · simp [hc, h0, take_min_length]
  · unfold fhWrite
    by_cases hc : f.closed = true <;> simp [hc]

theorem goodVal_save (m : FileMeta) (data : List Nat)
    (hsz : m.size = (data.length : Int)) (hlen : data.length < 2 ^ 63) :
    goodVal (encodeMeta m ++ data) := by
  refine ⟨?_, ?_, ?_⟩
  · rw [length_encodeMeta_append]; unfold metaLen; omega
  · rw [length_encodeMeta_append]; unfold metaLen; omega
  · rw [decodeMeta_size_append, length_encodeMeta_append]
    unfold metaLen
    have h21 : (21 + data.length - 21 : Nat) = data.length := by omega
    rw [h21, hsz]
    exact ofBits64_toBits64 _ (by omega) (by omega)

theorem storeInv_saveFile (s : Store) (name : Key) (data : List Nat) (m : FileMeta)
    (hs : StoreInv s) (hsz : m.size = (data.length : Int)) (hlen : data.length < 2 ^ 63) :
    StoreInv (saveFile s name data m) := by
  intro e he
  simp only [saveFile] at he
  rcases mem_bucketPut _ _ _ _ he with h | h
  · exact hs e h
  · rw [h]
    exact goodVal_save m data hsz hlen

theorem storeInv_fsRemove (s : Store) (k : Key) (hs : StoreInv s) :
    StoreInv (fsRemove s k) := by
  intro e he
  simp only [fsRemove] at he
  exact hs e (mem_bucketDelete _ _ _ he)

theorem loadFile_inv (s : Store) (name : Key) (data : List Nat) (m : FileMeta)
    (hs : StoreInv s) (h : loadFile s name = some (data, m)) :
    m.size = (data.length : Int) ∧ data.length < 2 ^ 63 := by
  unfold loadFile at h
  cases hg : bucketGet s.files name with
  | none => rw [hg] at h; exact absurd h (by simp)
  | some val =>
    rw [hg] at h
    simp only [Option.some.injEq, Prod.mk.injEq] at h
    obtain ⟨h1, h2⟩ := h
    obtain ⟨ha, hb, hq⟩ := hs (name, val) (mem_of_bucketGet _ _ _ hg)
    subst h1
    subst h2
    constructor
    · rw [hq, List.length_drop]
    · rw [List.length_drop]
      exact hb

theorem length_overwriteAt (buf : List Nat) (off : Nat) (p : List Nat)
    (h : off ≤ buf.length) : (overwriteAt buf off p).length = buf.length := by
  simp only [overwriteAt, List.length_append, List.length_take, List.length_drop]
  omega

/-- C9: the files-bucket invariant — every stored value is at least 21 bytes
long and its decoded size field equals the byte length of the payload after
the 21-byte header (strengthened with a payload-fits-int64 bound, which is
what makes the invariant inductive) — holds after create and is preserved by
every operation that stores a file entry: write, writeAt, truncate (under the
natural int64 bounds on the new sizes, and buffer well-formedness for
truncate's padding arithmetic), chmod, chtimes and rename. -/
theorem storeInv_preserved (s : Store) (hs : StoreInv s) :
    (∀ name now, StoreInv (create s name now).1) ∧
    (∀ f p now, f.buffer.bytes.length + p.length < 2 ^ 63 →
       StoreInv (fhWrite s f p now).2.2) ∧
    (∀ f p off now, f.buffer.bytes.length < 2 ^ 63 → off < 2 ^ 63 →
       StoreInv (fhWriteAt s f p off now).2.2) ∧
    (∀ f size now, f.buffer.wf → size < 2 ^ 63 →
       StoreInv (fhTruncate s f size now).2.2) ∧
    (∀ name mode s2, chmod s name mode = .ok s2 → StoreInv s2) ∧
    (∀ name mtime s2, chtimes s name mtime = .ok s2 → StoreInv s2) ∧
    (∀ oldname newname s2, rename s oldname newname = .ok s2 → StoreInv s2) := by
  refine ⟨?_, ?_, ?_, ?_, ?_, ?_, ?_⟩
  · intro name now
    simp only [create]
    exact storeInv_saveFile _ _ _ _ hs (by simp) (by norm_num)
  · intro f p now hlen2
    by_cases hc : f.closed = true
    · simp only [fhWrite, if_pos hc]
      exact hs
    · simp only [fhWrite, if_neg hc]
      refine storeInv_saveFile _ _ _ _ hs rfl ?_
      show ({ f.buffer with data := f.buffer.data ++ p } : Buffer).bytes.length < 2 ^ 63
      simp only [Buffer.bytes, List.length_drop, List.length_append]
      simp only [Buffer.bytes, List.length_drop] at hlen2
      omega
  · intro f p off now hl1 hl2
    by_cases hc : f.closed = true
    · simp only [fhWriteAt, if_pos hc]
      exact hs
    · simp only [fhWriteAt, if_neg hc]
      refine storeInv_saveFile _ _ _ _ hs rfl ?_
      show (overwriteAt (if f.buffer.bytes.length < off then
          f.buffer.bytes ++ List.replicate (off - f.buffer.bytes.length) 0
          else f.buffer.bytes) off p).length < 2 ^ 63
      by_cases hpad : f.buffer.bytes.length < off
      · rw [if_pos hpad,
          length_overwriteAt _ _ _ (by simp only [List.length_append, List.length_replicate]; omega)]
        simp only [List.length_append, List.length_replicate]
        omega
      · rw [if_neg hpad, length_overwriteAt _ _ _ (by omega)]
        omega
  · intro f size now hwf hsz63
    by_cases hc : f.closed = true
    · simp only [fhTruncate, if_pos hc]
      exact hs
    · simp only [fhTruncate, if_neg hc]
      have key : ∀ b2 : Buffer, b2.bytes.length = size →
          StoreInv (saveFile s f.name b2.bytes
            { f.meta with size := (size : Int), modTime := now }) := by
        intro b2 hb
        refine storeInv_saveFile _ _ _ _ hs ?_ ?_
        · show ((size : Int)) = (b2.bytes.length : Int)
          rw [hb]
        · rw [hb]
          exact hsz63
      refine key _ ?_
      by_cases hlt : size < f.buffer.bytes.length
      · rw [if_pos hlt]
        show (f.buffer.bytes.take size).length = size
        rw [List.length_take]
        omega
      · by_cases hgt : f.buffer.bytes.length < size
        · rw [if_neg hlt, if_pos hgt]
          show ((f.buffer.data ++ List.replicate (size - f.buffer.bytes.length) 0).drop
              f.buffer.off).length = size
          simp only [Buffer.bytes, List.length_drop] at hgt
          simp only [Buffer.wf] at hwf
          simp only [List.length_drop, List.length_append, List.length_replicate,
            Buffer.bytes]
          omega
        · rw [if_neg hlt, if_neg hgt]
          simp only [Buffer.bytes, List.length_drop] at hlt hgt ⊢
          omega
  · intro name mode s2 h
    unfold chmod at h
    cases hl : loadFile s name with
    | none => rw [hl] at h; exact absurd h (by simp)
    | some dm =>
      obtain ⟨data, m⟩ := dm
      rw [hl] at h
      simp only [Except.ok.injEq] at h
      subst h
      obtain ⟨hsz, hlen⟩ := loadFile_inv s name data m hs hl
      exact storeInv_saveFile _ _ _ _ hs (by simpa using hsz) hlen
  · intro name mtime s2 h
    unfold chtimes at h
    cases hl : loadFile s name with
    | none => rw [hl] at h; exact absurd h (by simp)
    | some dm =>
      obtain ⟨data, m⟩ := dm
      rw [hl] at h
      simp only [Except.ok.injEq] at h
      subst h
      obtain ⟨hsz, hlen⟩ := loadFile_inv s name data m hs hl
      exact storeInv_saveFile _ _ _ _ hs (by simpa using hsz) hlen
  · intro oldname newname s2 h
    unfold rename at h
    cases hl : loadFile s oldname with
    | none => rw [hl] at h; exact absurd h (by simp)
    | some dm =>
      obtain ⟨data, m⟩ := dm
      rw [hl] at h
      simp only [Except.ok.injEq] at h
      subst h
      obtain ⟨hsz, hlen⟩ := loadFile_inv s oldname data m hs hl
      exact storeInv_fsRemove _ _ (storeInv_saveFile _ _ _ _ hs hsz hlen)

/-- Witness for C9: starting from the empty store (which satisfies the
invariant), create and then a write preserve it. -/
theorem storeInv_preserved_witness :
    StoreInv (⟨[], []⟩ : Store) ∧
    StoreInv (create (⟨[], []⟩ : Store) [5] 0).1 ∧
    ((create (⟨[], []⟩ : Store) [5] 0).2.buffer.bytes.length + ([42] : List Nat).length
        < 2 ^ 63) ∧
    StoreInv (fhWrite (⟨[], []⟩ : Store) (create (⟨[], []⟩ : Store) [5] 0).2 [42] 1).2.2 :=
  ⟨fun e he => absurd he (List.not_mem_nil e),
   (storeInv_preserved (⟨[], []⟩ : Store) (fun e he => absurd he (List.not_mem_nil e))).1 [5] 0,
   by decide,
   (storeInv_preserved (⟨[], []⟩ : Store)
       (fun e he => absurd he (List.not_mem_nil e))).2.1
     (create (⟨[], []⟩ : Store) [5] 0).2 [42] 1 (by decide)⟩

end BboltFS
